import Mathlib

/-!
# Verification of the product-catalog program (`src/prog/idz.py`)

Shallow embedding of the `Product` record, the `Staff` catalog and its
operations `add`, `select`, `load`, `save`, together with proofs settling
the specification claims.

Conventions of the embedding:
* Python exceptions become `Except` / explicit error components.
* The mutating methods of `Staff` become functions returning the new state;
  `Staff.load`, which can both mutate and raise, returns the post-state
  together with an optional error (the post-state is the object's state at
  the moment the exception propagates, exactly as in CPython).
* Machine-independent Python `int` is embedded as `Int`.
* The XML trees handled by `xml.etree.ElementTree` are embedded structurally
  to the depth the program accesses them (root → product elements → field
  elements with a tag and an optional text).
-/

namespace Idz

/-- `Product` dataclass (frozen): `name`, `market`, `count` (idz.py lines 33-37). -/
structure Product where
  name : String
  market : String
  count : Int
deriving DecidableEq

/-- The `IllegalCount` exception: carries the offending count and a message
whose default is the source's (misspelled) `"Illegall count"` (idz.py lines 12-20).
The logging side effect of its `__str__` is out of scope. -/
structure IllegalCount where
  count : Int
  message : String := "Illegall count"
deriving DecidableEq

/-- The `Staff` dataclass: an ordered list of products (idz.py lines 40-42). -/
structure Staff where
  products : List Product
deriving DecidableEq

/-- The sort key used by `Staff.add`: `self.products.sort(key=lambda p: p.name)`
compares records by their `name` field only. -/
def byName (a b : Product) : Prop :=
  a.name ≤ b.name

instance : DecidableRel byName := fun a b =>
  inferInstanceAs (Decidable (a.name ≤ b.name))

instance : IsTotal Product byName :=
  ⟨fun a b => le_total a.name b.name⟩

instance : IsTrans Product byName :=
  ⟨fun _ _ _ hab hbc => le_trans hab hbc⟩

/-- `Staff.add` (idz.py lines 44-48): raise `IllegalCount` on a negative count,
otherwise append the new product and re-sort the whole list by name.
CPython's `list.sort` is a stable sort; `List.insertionSort byName` is the
(unique) stable sort by that key, so it embeds `sort(key=lambda p: p.name)`
faithfully. -/
def Staff.add (s : Staff) (name market : String) (count : Int) :
    Except IllegalCount Staff :=
  if count < 0 then
    .error { count := count }
  else
    .ok ⟨List.insertionSort byName (s.products ++ [⟨name, market, count⟩])⟩

/-- `Staff.select` (idz.py lines 71-76): scan `products` in order, appending
each record whose `name` equals the query to the result list. -/
def Staff.select (s : Staff) (name : String) : List Product :=
  s.products.foldl
    (fun result product =>
      if product.name = name then result ++ [product] else result)
    []

/-- A sequence of `add` calls, stopping at the first failure.  Each entry is
the `(name, market, count)` argument triple of one call. -/
def applyAdds (s : Staff) : List (String × String × Int) → Except IllegalCount Staff
  | [] => .ok s
  | (n, m, c) :: rest =>
    match s.add n m c with
    | .ok s' => applyAdds s' rest
    | .error e => .error e

/-- The record a single `add` argument triple constructs. -/
def recordOfArgs (o : String × String × Int) : Product :=
  ⟨o.1, o.2.1, o.2.2⟩

/-! ## The XML document model

`load` reads, for each child of the root and each grandchild, only the `tag`
and `text` attributes; `save` builds exactly a root → product → field tree.
The embedding therefore models the tree to that depth.  `text` is `Option`
because `ElementTree` gives `None` for an element with no text. -/

/-- A field-level element as `load`/`save` access it: tag and optional text. -/
structure XmlNode where
  tag : String
  text : Option String
deriving DecidableEq

/-- A child of the root (`load` scans all of them, never checking their tag). -/
structure ProductNode where
  tag : String
  children : List XmlNode
deriving DecidableEq

/-- A parsed document: the root element's tag and its child elements. -/
structure XmlDoc where
  rootTag : String
  children : List ProductNode
deriving DecidableEq

/-- A written file: the declaration's encoding (when a declaration is
emitted) and the document. -/
structure XmlFile where
  encoding : Option String
  doc : XmlDoc
deriving DecidableEq

/-- Errors raised from inside the scanning loop of `load`, all by
`count = int(element.text)` (idz.py line 92): `ValueError` for a non-numeric
string, `TypeError` for `int(None)`. -/
inductive LoadError
  | valueError (text : String)
  | typeError
deriving DecidableEq

/-- Decimal digit value of a character, `none` for a non-digit. -/
def digitVal (ch : Char) : Option Nat :=
  if '0' ≤ ch ∧ ch ≤ '9' then some (ch.toNat - 48) else none

/-- Accumulate the value of a run of decimal digits; fails on any non-digit. -/
def parseDigitsAux : List Char → Nat → Option Nat
  | [], acc => some acc
  | ch :: rest, acc =>
    match digitVal ch with
    | some d => parseDigitsAux rest (acc * 10 + d)
    | none => none

/-- Python's `int` on a character list: an optional single `+`/`-` sign
followed by a non-empty run of decimal digits; anything else raises
`ValueError` (embedded as `none`). -/
def pyIntChars : List Char → Option Int
  | [] => none
  | ch :: rest =>
    if ch = '-' then
      if rest = [] then none
      else (parseDigitsAux rest 0).map (fun n : Nat => -(n : Int))
    else if ch = '+' then
      if rest = [] then none
      else (parseDigitsAux rest 0).map (fun n : Nat => (n : Int))
    else (parseDigitsAux (ch :: rest) 0).map (fun n : Nat => (n : Int))

/-- Python's `int(s)` on a string, as `load` uses it.  Python's tolerance of
surrounding whitespace and of `_` digit grouping is not modelled; no value in
this development exercises it. -/
def pyInt (s : String) : Option Int :=
  pyIntChars s.data

/-- The check-and-append that runs after every child element (idz.py lines
93-94): once all three of name, market, count are set, a record is appended. -/
def maybeAppend (acc : List Product) :
    Option String → Option String → Option Int → List Product
  | some n, some m, some c => acc ++ [⟨n, m, c⟩]
  | _, _, _ => acc

/-- The inner loop of `load` over one product element's children (idz.py
lines 85-94), with the `name`/`market`/`count` variables and the list being
appended to passed explicitly.  A raised exception stops the scan and returns
the list as accumulated so far. -/
def scanChildren : List XmlNode → Option String → Option String → Option Int →
    List Product → List Product × Option LoadError
  | [], _, _, _, acc => (acc, none)
  | e :: rest, name, market, count, acc =>
    if e.tag = "name" then
      scanChildren rest e.text market count (maybeAppend acc e.text market count)
    else if e.tag = "market" then
      scanChildren rest name e.text count (maybeAppend acc name e.text count)
    else if e.tag = "count" then
      match e.text with
      | none => (acc, some .typeError)
      | some t =>
        match pyInt t with
        | none => (acc, some (.valueError t))
        | some v =>
          scanChildren rest name market (some v)
            (maybeAppend acc name market (some v))
    else
      scanChildren rest name market count (maybeAppend acc name market count)

/-- The outer loop of `load` over the root's children (idz.py lines 84-94). -/
def loadChildren : List ProductNode → List Product → List Product × Option LoadError
  | [], acc => (acc, none)
  | p :: rest, acc =>
    match scanChildren p.children none none none acc with
    | (acc', none) => loadChildren rest acc'
    | (acc', some e) => (acc', some e)

/-- `Staff.load` (idz.py lines 78-94) on an already-parsed document.  File
reading and the XML well-formedness check (`ET.fromstring`, which raises
`ET.ParseError` before any mutation) are outside this model.  From line 83 on
the method first clears `self.products` and then scans the document, so the
result never uses the receiver `s`.  Returned: the post-state and the
optional error; on an `int` conversion error the post-state holds exactly the
records appended before the failure.  The receiver (Python's `self`) is
unused: its products are overwritten unconditionally. -/
def Staff.load (_self : Staff) (doc : XmlDoc) : Staff × Option LoadError :=
  (⟨(loadChildren doc.children []).1⟩, (loadChildren doc.children []).2)

/-- The records one product element contributes when scanned on its own,
together with the error its scan raises, if any. -/
def productRecords (p : ProductNode) : List Product × Option LoadError :=
  scanChildren p.children none none none []

/-- Big-endian decimal digit characters of a natural number, with explicit
fuel bounding the recursion depth (`n ≤ fuel` at every use site); empty
for 0. -/
def natDigitCharsAux : Nat → Nat → List Char
  | 0, _ => []
  | fuel + 1, n =>
    if n = 0 then []
    else natDigitCharsAux fuel (n / 10) ++ [Nat.digitChar (n % 10)]

/-- Big-endian decimal digit characters of a natural number (empty for 0). -/
def natDigitChars (n : Nat) : List Char :=
  natDigitCharsAux n n

/-- Python's `str` on an `int`: decimal digits, `-` prefix for negatives. -/
def intToDecimal (c : Int) : String :=
  if c < 0 then ⟨'-' :: natDigitChars c.natAbs⟩
  else if c = 0 then "0"
  else ⟨natDigitChars c.natAbs⟩

/-- The `product` element `save` builds for one record (idz.py lines 99-106):
`name`, `market`, `count` subelements in that order, texts set to the fields,
the count via `str`. -/
def productToElement (r : Product) : ProductNode :=
  ⟨"product",
    [⟨"name", some r.name⟩, ⟨"market", some r.market⟩,
     ⟨"count", some (intToDecimal r.count)⟩]⟩

/-- `Staff.save` (idz.py lines 96-109): build a `products` root holding one
`product` element per record, in list order, then write it with
`encoding="utf8", xml_declaration=True`, which emits an XML declaration
naming the encoding `utf8`.  Pure: the catalog is not modified. -/
def Staff.save (s : Staff) : XmlFile :=
  ⟨some "utf8", ⟨"products", s.products.map productToElement⟩⟩

/-- Text normalization performed by the write-then-reparse round trip of
`ElementTree`: an element whose text is the empty string is serialized as a
self-closing tag (e.g. `<name />`), which parses back with `text = None`;
non-empty text survives unchanged. -/
def normText : Option String → Option String
  | none => none
  | some t => if t = "" then none else some t

/-- One field element after the file round trip. -/
def normField (e : XmlNode) : XmlNode :=
  ⟨e.tag, normText e.text⟩

/-- One product element after the file round trip. -/
def normProduct (p : ProductNode) : ProductNode :=
  ⟨p.tag, p.children.map normField⟩

/-- The document obtained by writing `f` with `tree.write` and parsing the
resulting file back with `ET.fromstring`: the same structure, with empty
texts becoming absent. -/
def writeParse (f : XmlFile) : XmlDoc :=
  ⟨f.doc.rootTag, f.doc.children.map normProduct⟩

/-- The text of the first child of `p` with tag `tg`, if any. -/
def getField (p : ProductNode) (tg : String) : Option String :=
  (p.children.find? (fun e => e.tag = tg)).bind (fun e => e.text)

/-- Transcribed from the spec's §6 XML grammar, for comparison with the
output of `Staff.save`: a `product` element holds exactly one `name`, one
`market` and one `count` child — in any order — each carrying text, the
count text being the decimal string of a non-negative integer. -/
def GrammarProduct (p : ProductNode) : Prop :=
  p.tag = "product" ∧
    ∃ nm mk : String, ∃ n : Nat,
      p.children.Perm
        [⟨"name", some nm⟩, ⟨"market", some mk⟩,
         ⟨"count", some (intToDecimal (n : Int))⟩]

/-- Transcribed from the spec's §6 XML grammar: root element `products`
containing zero or more grammar-conforming `product` children, emitted with
an XML declaration carrying encoding `utf8`. -/
def SpecGrammar (f : XmlFile) : Prop :=
  f.encoding = some "utf8" ∧ f.doc.rootTag = "products" ∧
    ∀ p ∈ f.doc.children, GrammarProduct p

/-- A document containing some product child tagged `count` whose text
`int()` cannot convert: either absent text (`int(None)`, a `TypeError`) or a
non-numeric string (`ValueError`). -/
def HasBadCount (doc : XmlDoc) : Prop :=
  ∃ p ∈ doc.children, ∃ e ∈ p.children, e.tag = "count" ∧
    (e.text = none ∨ ∃ t, e.text = some t ∧ pyInt t = none)

/-- The value the `name` variable holds after the scan of `cs`, starting
from `n`: the text of the `name`-tagged child, if any (under the
at-most-one-per-tag hypotheses used below there is at most one). -/
def finalName (cs : List XmlNode) (n : Option String) : Option String :=
  ((cs.find? (fun e => e.tag = "name")).map (fun e => e.text)).getD n

/-- The value the `market` variable holds after the scan of `cs`. -/
def finalMarket (cs : List XmlNode) (m : Option String) : Option String :=
  ((cs.find? (fun e => e.tag = "market")).map (fun e => e.text)).getD m

/-- The value the `count` variable holds after the scan of `cs` (the parsed
integer of the `count` child's text). -/
def finalCount (cs : List XmlNode) (c : Option Int) : Option Int :=
  ((cs.find? (fun e => e.tag = "count")).map (fun e => e.text.bind pyInt)).getD c

/-- The record a product element materializes, when its scan completes all
three fields: fields taken from its `name`/`market`/`count` children. -/
def recordOfProduct (p : ProductNode) : Option Product :=
  match finalName p.children none, finalMarket p.children none,
      finalCount p.children none with
  | some nm, some mk, some ct => some ⟨nm, mk, ct⟩
  | _, _, _ => none

/-- The three field tags of the grammar. -/
def fieldTags : List String :=
  ["name", "market", "count"]

/-- A product element that follows the spec's grammar except that fields may
be missing: every child is one of the three field tags, no tag repeats,
every child carries text, and a `count` child's text parses as an integer. -/
def WellFormedChildren (cs : List XmlNode) : Prop :=
  (cs.map (fun e => e.tag)).Nodup ∧
    (∀ e ∈ cs, e.tag ∈ fieldTags) ∧
    (∀ e ∈ cs, e.text.isSome) ∧
    (∀ e ∈ cs, e.tag = "count" → (e.text.bind pyInt).isSome)

/-- A grammar-conforming-up-to-missing-fields product element. -/
def WellFormedProduct (p : ProductNode) : Prop :=
  WellFormedChildren p.children

/-- A product element in which all three of `name`, `market`, `count`
appear. -/
def CompleteProduct (p : ProductNode) : Prop :=
  "name" ∈ p.children.map (fun e => e.tag) ∧
    "market" ∈ p.children.map (fun e => e.tag) ∧
    "count" ∈ p.children.map (fun e => e.tag)

instance (cs : List XmlNode) : Decidable (WellFormedChildren cs) := by
  unfold WellFormedChildren
  infer_instance

instance (p : ProductNode) : Decidable (WellFormedProduct p) := by
  unfold WellFormedProduct
  infer_instance

instance (p : ProductNode) : Decidable (CompleteProduct p) := by
  unfold CompleteProduct
  infer_instance

/-! ## Theorems -/

/-- C4: for every catalog state and every name, market and negative count,
`add` fails with the `IllegalCount` exception carrying the offending count
value (and the source's message).  `Staff.add` is a pure function of the
catalog — it returns the successor state only through `Except.ok` — so on
failure the caller's catalog is, by construction, unchanged in length and
contents. -/
theorem add_negative_count_fails (s : Staff) (name market : String)
    (count : Int) (h : count < 0) :
    s.add name market count = .error { count := count, message := "Illegall count" } := by
  simp [Staff.add, h]

/-- Witness for C4 at a concrete catalog and count `-1`. -/
theorem add_negative_count_fails_witness :
    (-1 : Int) < 0 ∧
      (Staff.mk [⟨"Bread", "Lidl", 3⟩]).add "Apple" "Aldi" (-1) =
        .error { count := -1, message := "Illegall count" } :=
  ⟨by decide, add_negative_count_fails ⟨[⟨"Bread", "Lidl", 3⟩]⟩ "Apple" "Aldi" (-1) (by decide)⟩

/-- The accumulating loop of `select` appends exactly the matching records. -/
theorem select_foldl (name : String) :
    ∀ (l acc : List Product),
      (l.foldl
        (fun result product =>
          if product.name = name then result ++ [product] else result) acc) =
        acc ++ l.filter (fun p => p.name = name)
  | [], acc => by simp
  | p :: l, acc => by
    by_cases h : p.name = name <;>
      simp [List.foldl_cons, h, select_foldl name l, List.filter_cons]

/-- C6: `select` returns exactly the records whose `name` equals the query —
an exact, case-sensitive string comparison — in their relative catalog order
(that is, the `filter` of `records`), and returns the empty list rather than
an error when nothing matches.  `Staff.select` is a pure function, so the
catalog is not mutated. -/
theorem select_eq_filter (s : Staff) (name : String) :
    s.select name = s.products.filter (fun p => p.name = name) ∧
      ((∀ p ∈ s.products, p.name ≠ name) → s.select name = []) := by
  have hf : s.select name = s.products.filter (fun p => p.name = name) := by
    simpa [Staff.select] using select_foldl name s.products []
  refine ⟨hf, fun hnone => ?_⟩
  rw [hf, List.filter_eq_nil_iff]
  intro p hp
  simpa using hnone p hp

/-- Witness for C6's no-match clause at a concrete catalog and query. -/
theorem select_eq_filter_witness :
    (Staff.mk [⟨"Apple", "Aldi", 5⟩]).select "Apple" =
        [⟨"Apple", "Aldi", 5⟩] ∧
      (Staff.mk [⟨"Apple", "Aldi", 5⟩]).select "Kiwi" = [] := by
  constructor
  · rw [(select_eq_filter ⟨[⟨"Apple", "Aldi", 5⟩]⟩ "Apple").1]
    decide
  · exact (select_eq_filter ⟨[⟨"Apple", "Aldi", 5⟩]⟩ "Kiwi").2 (by decide)

/-- Stability of one `orderedInsert` step with respect to the name filter:
the inserted record lands in front of the records of equal name (all records
skipped on the way in have strictly smaller names). -/
theorem filter_orderedInsert_name (x : Product) (n : String) :
    ∀ l : List Product,
      (List.orderedInsert byName x l).filter (fun p => p.name = n) =
        if x.name = n then x :: l.filter (fun p => p.name = n)
        else l.filter (fun p => p.name = n)
  | [] => by
    by_cases h : x.name = n <;> simp [List.orderedInsert, h]
  | b :: t => by
    rw [List.orderedInsert]
    by_cases hxb : byName x b
    · by_cases h : x.name = n <;> simp [hxb, List.filter_cons, h]
    · have hbx : b.name < x.name := lt_of_not_le hxb
      by_cases h : x.name = n
      · have hb : ¬(b.name = n) := by
          intro hc
          exact absurd (h ▸ hc ▸ hbx) (lt_irrefl _)
        simp [hxb, List.filter_cons, hb, filter_orderedInsert_name x n t, h]
      · by_cases hb : b.name = n <;>
          simp [hxb, List.filter_cons, hb, filter_orderedInsert_name x n t, h]

/-- Stability of the whole sort `add` performs: filtering the sorted list by
any fixed name yields the same subsequence as filtering the unsorted list —
records of equal name keep their relative order. -/
theorem filter_insertionSort_name (n : String) :
    ∀ l : List Product,
      (List.insertionSort byName l).filter (fun p => p.name = n) =
        l.filter (fun p => p.name = n)
  | [] => rfl
  | a :: l => by
    rw [List.insertionSort, filter_orderedInsert_name a n,
      filter_insertionSort_name n l]
    by_cases h : a.name = n <;> simp [List.filter_cons, h]

/-- C3: starting from a name-sorted catalog, after every sequence of
successful `add` calls the record list is again non-decreasing by `name`
(so in particular after each individual call, the theorem applied to each
prefix of the sequence), and for every name the subsequence of records
carrying that name is the original subsequence followed by the added records
in call order — the sort is stable, ties keep their insertion order. -/
theorem adds_sorted_stable (s0 : Staff) (ops : List (String × String × Int))
    (s' : Staff) (hsorted : s0.products.Sorted byName)
    (hok : applyAdds s0 ops = .ok s') :
    s'.products.Sorted byName ∧
      ∀ n : String,
        s'.products.filter (fun p => p.name = n) =
          s0.products.filter (fun p => p.name = n) ++
            (ops.filter (fun o => o.1 = n)).map recordOfArgs := by
  induction ops generalizing s0 with
  | nil =>
    cases hok
    exact ⟨hsorted, fun n => by simp⟩
  | cons op rest ih =>
    obtain ⟨nm, mk, c⟩ := op
    rw [applyAdds] at hok
    by_cases hc : c < 0
    · simp [Staff.add, hc] at hok
    · simp only [Staff.add, hc, if_false] at hok
      set s1 : Staff :=
        ⟨List.insertionSort byName (s0.products ++ [⟨nm, mk, c⟩])⟩ with hs1
      have hsorted1 : s1.products.Sorted byName :=
        List.sorted_insertionSort byName _
      obtain ⟨h1, h2⟩ := ih s1 hsorted1 hok
      refine ⟨h1, fun n => ?_⟩
      rw [h2 n]
      have hstab :
          s1.products.filter (fun p => p.name = n) =
            s0.products.filter (fun p => p.name = n) ++
              (if nm = n then [(⟨nm, mk, c⟩ : Product)] else []) := by
        have hp : s1.products =
            List.insertionSort byName (s0.products ++ [⟨nm, mk, c⟩]) := rfl
        rw [hp, filter_insertionSort_name n]
        by_cases h : nm = n <;> simp [List.filter_append, h]
      rw [hstab]
      by_cases h : nm = n <;>
        simp [List.filter_cons, h, recordOfArgs, List.append_assoc]

/-- `maybeAppend` only appends at the end: the accumulator factors out. -/
theorem maybeAppend_eq_append (acc : List Product) (n m : Option String)
    (c : Option Int) :
    maybeAppend acc n m c = acc ++ maybeAppend [] n m c := by
  cases n <;> cases m <;> cases c <;> simp [maybeAppend]

/-- The scan of one element's children only appends to the list it is given:
its result is the incoming accumulator followed by the element's own
contribution, and neither that contribution nor the error depends on the
accumulator. -/
theorem scanChildren_append :
    ∀ (cs : List XmlNode) (n m : Option String) (c : Option Int)
      (acc : List Product),
      scanChildren cs n m c acc =
        (acc ++ (scanChildren cs n m c []).1, (scanChildren cs n m c []).2)
  | [], n, m, c, acc => by simp [scanChildren]
  | e :: rest, n, m, c, acc => by
    simp only [scanChildren]
    split_ifs with h1 h2 h3
    · rw [scanChildren_append rest e.text m c (maybeAppend acc e.text m c),
        scanChildren_append rest e.text m c (maybeAppend [] e.text m c),
        maybeAppend_eq_append acc e.text m c]
      simp [List.append_assoc]
    · rw [scanChildren_append rest n e.text c (maybeAppend acc n e.text c),
        scanChildren_append rest n e.text c (maybeAppend [] n e.text c),
        maybeAppend_eq_append acc n e.text c]
      simp [List.append_assoc]
    · cases htext : e.text with
      | none => simp
      | some t =>
        cases hpi : pyInt t with
        | none => simp [hpi]
        | some v =>
          simp only [hpi]
          rw [scanChildren_append rest n m (some v) (maybeAppend acc n m (some v)),
            scanChildren_append rest n m (some v) (maybeAppend [] n m (some v)),
            maybeAppend_eq_append acc n m (some v)]
          simp [List.append_assoc]
    · rw [scanChildren_append rest n m c (maybeAppend acc n m c),
        scanChildren_append rest n m c (maybeAppend [] n m c),
        maybeAppend_eq_append acc n m c]
      simp [List.append_assoc]

/-- The outer loop likewise only appends to the list it is given. -/
theorem loadChildren_append :
    ∀ (ps : List ProductNode) (acc : List Product),
      loadChildren ps acc =
        (acc ++ (loadChildren ps []).1, (loadChildren ps []).2)
  | [], acc => by simp [loadChildren]
  | p :: rest, acc => by
    rw [loadChildren, scanChildren_append p.children none none none acc]
    conv_rhs => rw [loadChildren]
    cases herr : (scanChildren p.children none none none []).2 with
    | none =>
      have hscan : scanChildren p.children none none none [] =
          ((scanChildren p.children none none none []).1, none) := by
        rw [← herr]
      rw [hscan]
      simp only []
      rw [loadChildren_append rest
          (acc ++ (scanChildren p.children none none none []).1),
        loadChildren_append rest (scanChildren p.children none none none []).1]
      simp [List.append_assoc]
    | some err =>
      have hscan : scanChildren p.children none none none [] =
          ((scanChildren p.children none none none []).1, some err) := by
        rw [← herr]
      rw [hscan]

/-- On success the outer loop delivers, after the incoming accumulator, the
concatenation of the per-element contributions, in document order. -/
theorem loadChildren_success :
    ∀ (ps : List ProductNode) (acc : List Product),
      (loadChildren ps acc).2 = none →
      (loadChildren ps acc).1 =
        acc ++ (ps.map (fun p => (productRecords p).1)).flatten
  | [], acc, _ => by simp [loadChildren]
  | p :: rest, acc, h => by
    rw [loadChildren, scanChildren_append p.children none none none acc] at h ⊢
    cases herr : (scanChildren p.children none none none []).2 with
    | none =>
      have hscan : scanChildren p.children none none none [] =
          ((scanChildren p.children none none none []).1, none) := by
        rw [← herr]
      rw [hscan] at h ⊢
      simp only [] at h ⊢
      rw [loadChildren_success rest
          (acc ++ (scanChildren p.children none none none []).1) h]
      simp [productRecords, List.append_assoc]
    | some err =>
      have hscan : scanChildren p.children none none none [] =
          ((scanChildren p.children none none none []).1, some err) := by
        rw [← herr]
      rw [hscan] at h
      simp at h

/-- C7: when `load` succeeds, the new record list is exactly the
concatenation, in document order, of what each product element of the
document contributes — no name-sort is applied after parsing — and the
result does not depend on the catalog the method was called on: the prior
records are replaced wholesale. -/
theorem load_document_order (s s' : Staff) (doc : XmlDoc)
    (h : (Staff.load s doc).2 = none) :
    (Staff.load s doc).1.products =
        (doc.children.map (fun p => (productRecords p).1)).flatten ∧
      Staff.load s' doc = Staff.load s doc := by
  refine ⟨?_, rfl⟩
  have hl : (Staff.load s doc).1.products = (loadChildren doc.children []).1 := rfl
  have h2 : (loadChildren doc.children []).2 = none := h
  rw [hl, loadChildren_success doc.children [] h2]
  simp

/-- Witness for C7: a document whose two products are in reverse name order
loads successfully, and the records come out in document order (unsorted). -/
theorem load_document_order_witness :
    (Staff.load ⟨[]⟩ ⟨"products",
        [⟨"product", [⟨"name", some "B"⟩, ⟨"market", some "M"⟩,
            ⟨"count", some "3"⟩]⟩,
         ⟨"product", [⟨"name", some "A"⟩, ⟨"market", some "N"⟩,
            ⟨"count", some "5"⟩]⟩]⟩).2 = none ∧
      (Staff.load ⟨[]⟩ ⟨"products",
        [⟨"product", [⟨"name", some "B"⟩, ⟨"market", some "M"⟩,
            ⟨"count", some "3"⟩]⟩,
         ⟨"product", [⟨"name", some "A"⟩, ⟨"market", some "N"⟩,
            ⟨"count", some "5"⟩]⟩]⟩).1.products =
        ([⟨"product", [⟨"name", some "B"⟩, ⟨"market", some "M"⟩,
            ⟨"count", some "3"⟩]⟩,
          ⟨"product", [⟨"name", some "A"⟩, ⟨"market", some "N"⟩,
            ⟨"count", some "5"⟩]⟩].map
              (fun p => (productRecords p).1)).flatten := by
  refine ⟨rfl, ?_⟩
  exact (load_document_order ⟨[]⟩ ⟨[]⟩
    ⟨"products",
      [⟨"product", [⟨"name", some "B"⟩, ⟨"market", some "M"⟩,
          ⟨"count", some "3"⟩]⟩,
       ⟨"product", [⟨"name", some "A"⟩, ⟨"market", some "N"⟩,
          ⟨"count", some "5"⟩]⟩]⟩ rfl).1

/-- C9: `load` applies no non-negativity check to counts: this document with
count text `"-5"` loads successfully and installs a record whose count is
negative — a state `add` itself would reject with `IllegalCount`. -/
theorem load_admits_negative_count :
    Staff.load ⟨[]⟩ ⟨"products",
        [⟨"product", [⟨"name", some "A"⟩, ⟨"market", some "M"⟩,
            ⟨"count", some "-5"⟩]⟩]⟩ =
      (⟨[⟨"A", "M", -5⟩]⟩, none) ∧
    (⟨"A", "M", -5⟩ : Product).count < 0 ∧
    (Staff.mk []).add "A" "M" (-5) = .error { count := -5 } := by
  refine ⟨by decide, by decide, rfl⟩

/-- C10: the all-three-fields check runs once per scanned child, so a child
following the one that completed the triple causes a second append: this
single product element with an extra trailing `junk` child yields two
identical records. -/
theorem load_duplicates_on_extra_child :
    Staff.load ⟨[]⟩ ⟨"products",
        [⟨"product", [⟨"name", some "A"⟩, ⟨"market", some "M"⟩,
            ⟨"count", some "3"⟩, ⟨"junk", some "z"⟩]⟩]⟩ =
      (⟨[⟨"A", "M", 3⟩, ⟨"A", "M", 3⟩]⟩, none) ∧
    ([⟨"A", "M", 3⟩, ⟨"A", "M", 3⟩] : List Product).length = 2 := by
  refine ⟨by decide, rfl⟩

/-- A scan over children containing a bad `count` child always raises. -/
theorem scanChildren_error :
    ∀ (cs : List XmlNode) (n m : Option String) (c : Option Int)
      (acc : List Product),
      (∃ e ∈ cs, e.tag = "count" ∧
        (e.text = none ∨ ∃ t, e.text = some t ∧ pyInt t = none)) →
      ((scanChildren cs n m c acc).2).isSome
  | [], _, _, _, _, h => by simp at h
  | x :: rest, n, m, c, acc, h => by
    obtain ⟨e, he, htag, hbad⟩ := h
    simp only [scanChildren]
    split_ifs with h1 h2 h3
    · have herest : e ∈ rest := by
        rcases List.mem_cons.mp he with rfl | hr
        · exact absurd (h1.symm.trans htag) (by decide)
        · exact hr
      exact scanChildren_error rest x.text m c _ ⟨e, herest, htag, hbad⟩
    · have herest : e ∈ rest := by
        rcases List.mem_cons.mp he with rfl | hr
        · exact absurd (h2.symm.trans htag) (by decide)
        · exact hr
      exact scanChildren_error rest n x.text c _ ⟨e, herest, htag, hbad⟩
    · cases htext : x.text with
      | none => simp
      | some t =>
        cases hpi : pyInt t with
        | none => simp [hpi]
        | some v =>
          simp only [hpi]
          have herest : e ∈ rest := by
            rcases List.mem_cons.mp he with rfl | hr
            · rcases hbad with hnone | ⟨t', ht', hpi'⟩
              · exact absurd (htext ▸ hnone) (by simp)
              · have : t' = t := by
                  have := ht'.symm.trans htext
                  simpa using this
                exact absurd (this ▸ hpi') (by simp [hpi])
            · exact hr
          exact scanChildren_error rest n m (some v) _ ⟨e, herest, htag, hbad⟩
    · have herest : e ∈ rest := by
        rcases List.mem_cons.mp he with rfl | hr
        · exact absurd htag h3
        · exact hr
      exact scanChildren_error rest n m c _ ⟨e, herest, htag, hbad⟩

/-- A document with a bad `count` child always makes the outer loop raise. -/
theorem loadChildren_error :
    ∀ (ps : List ProductNode) (acc : List Product),
      (∃ p ∈ ps, ∃ e ∈ p.children, e.tag = "count" ∧
        (e.text = none ∨ ∃ t, e.text = some t ∧ pyInt t = none)) →
      ((loadChildren ps acc).2).isSome
  | [], _, h => by simp at h
  | q :: rest, acc, h => by
    obtain ⟨p, hp, hbad⟩ := h
    rw [loadChildren]
    cases herr : (scanChildren q.children none none none acc).2 with
    | some err =>
      have hscan : scanChildren q.children none none none acc =
          ((scanChildren q.children none none none acc).1, some err) := by
        rw [← herr]
      rw [hscan]
      simp
    | none =>
      have hscan : scanChildren q.children none none none acc =
          ((scanChildren q.children none none none acc).1, none) := by
        rw [← herr]
      rw [hscan]
      simp only []
      have hprest : p ∈ rest := by
        rcases List.mem_cons.mp hp with rfl | hr
        · have := scanChildren_error p.children none none none acc hbad
          rw [herr] at this
          simp at this
        · exact hr
      exact loadChildren_error rest _ ⟨p, hprest, hbad⟩

/-- C1 counterexample: the claim fails on this input.  Prior state holds one
record `P/Q/1`; the document's only product has count text `"x"`.  `load`
fails (with the `ValueError` of `int("x")`, the error the spec's taxonomy
files under `ParseError`), but the catalog afterward is empty — the records
are NOT identical to those immediately before the call, because line 83
(`self.products = []`) runs before the scanning loop that raises. -/
theorem load_bad_count_not_atomic :
    (Staff.load ⟨[⟨"P", "Q", 1⟩]⟩ ⟨"products",
        [⟨"product", [⟨"name", some "B"⟩, ⟨"market", some "N"⟩,
            ⟨"count", some "x"⟩]⟩]⟩).2 = some (.valueError "x") ∧
      (Staff.load ⟨[⟨"P", "Q", 1⟩]⟩ ⟨"products",
        [⟨"product", [⟨"name", some "B"⟩, ⟨"market", some "N"⟩,
            ⟨"count", some "x"⟩]⟩]⟩).1.products = [] ∧
      ([] : List Product) ≠ [⟨"P", "Q", 1⟩] := by
  refine ⟨by decide, by decide, by decide⟩

/-- C1 (amended): for every catalog state and every parsed document in which
some product's count text is not a valid integer, `load` raises — but the
catalog's records afterward are NOT the records from before the call: the
post-state is independent of the prior state (the prior records are
discarded when `self.products = []` runs, before the failing conversion),
holding exactly the records materialized before the failure. -/
theorem load_bad_count_fails (s s' : Staff) (doc : XmlDoc)
    (h : HasBadCount doc) :
    ((Staff.load s doc).2).isSome ∧ Staff.load s' doc = Staff.load s doc :=
  ⟨loadChildren_error doc.children [] h, rfl⟩

/-- Witness for C1's amended theorem at a concrete catalog and document. -/
theorem load_bad_count_fails_witness :
    HasBadCount ⟨"products",
        [⟨"product", [⟨"name", some "B"⟩, ⟨"market", some "N"⟩,
            ⟨"count", some "x"⟩]⟩]⟩ ∧
      ((Staff.load ⟨[⟨"A", "M", 2⟩]⟩ ⟨"products",
        [⟨"product", [⟨"name", some "B"⟩, ⟨"market", some "N"⟩,
            ⟨"count", some "x"⟩]⟩]⟩).2).isSome := by
  have hbad : HasBadCount ⟨"products",
      [⟨"product", [⟨"name", some "B"⟩, ⟨"market", some "N"⟩,
          ⟨"count", some "x"⟩]⟩]⟩ := by
    refine ⟨⟨"product", [⟨"name", some "B"⟩, ⟨"market", some "N"⟩,
        ⟨"count", some "x"⟩]⟩, by simp, ⟨"count", some "x"⟩, by simp, rfl,
      Or.inr ⟨"x", rfl, by decide⟩⟩
  exact ⟨hbad, (load_bad_count_fails ⟨[⟨"A", "M", 2⟩]⟩ ⟨[]⟩ _ hbad).1⟩

/-- Witness for C3: a concrete successful `add` onto the empty (trivially
sorted) catalog, with the sortedness and stability conclusions instantiated. -/
theorem adds_sorted_stable_witness :
    (Staff.mk []).products.Sorted byName ∧
      applyAdds ⟨[]⟩ [("Apple", "Aldi", 5)] = .ok ⟨[⟨"Apple", "Aldi", 5⟩]⟩ ∧
      (Staff.mk [⟨"Apple", "Aldi", 5⟩]).products.Sorted byName ∧
      (Staff.mk [⟨"Apple", "Aldi", 5⟩]).products.filter
          (fun p => p.name = "Apple") =
        (Staff.mk []).products.filter (fun p => p.name = "Apple") ++
          ([("Apple", "Aldi", 5)].filter
            (fun o => o.1 = "Apple")).map recordOfArgs := by
  have h := adds_sorted_stable ⟨[]⟩ [("Apple", "Aldi", 5)]
    ⟨[⟨"Apple", "Aldi", 5⟩]⟩ List.sorted_nil rfl
  exact ⟨List.sorted_nil, rfl, h.1, h.2 "Apple"⟩

/-- `digitVal` inverts `Nat.digitChar` on decimal digits. -/
theorem digitVal_digitChar (d : Nat) (h : d < 10) :
    digitVal (Nat.digitChar d) = some d := by
  interval_cases d <;> decide

/-- `parseDigitsAux` consumes an appended list in two stages. -/
theorem parseDigitsAux_append :
    ∀ (xs ys : List Char) (a : Nat),
      parseDigitsAux (xs ++ ys) a =
        (parseDigitsAux xs a).bind fun b => parseDigitsAux ys b
  | [], ys, a => by simp [parseDigitsAux]
  | x :: xs, ys, a => by
    cases hd : digitVal x with
    | none => simp [parseDigitsAux, hd]
    | some d => simp [parseDigitsAux, hd, parseDigitsAux_append xs ys]

/-- Parsing the digits printed for `n` recovers `n` (with the accumulator
shifted by the printed length). -/
theorem parseDigitsAux_natDigitCharsAux :
    ∀ (fuel n a : Nat), n ≤ fuel →
      parseDigitsAux (natDigitCharsAux fuel n) a =
        some (a * 10 ^ (natDigitCharsAux fuel n).length + n)
  | 0, n, a, h => by
    have hn : n = 0 := Nat.le_zero.mp h
    subst hn
    simp [natDigitCharsAux, parseDigitsAux]
  | fuel + 1, n, a, h => by
    by_cases hn : n = 0
    · subst hn
      simp [natDigitCharsAux, parseDigitsAux]
    · have hdiv : n / 10 ≤ fuel := by omega
      rw [natDigitCharsAux, if_neg hn, parseDigitsAux_append,
        parseDigitsAux_natDigitCharsAux fuel (n / 10) a hdiv]
      have hlt : n % 10 < 10 := Nat.mod_lt _ (by norm_num)
      simp only [Option.some_bind, parseDigitsAux, digitVal_digitChar _ hlt,
        List.length_append, List.length_singleton]
      rw [Option.some.injEq, pow_succ]
      generalize 10 ^ (natDigitCharsAux fuel (n / 10)).length = P
      have hring : (a * P + n / 10) * 10 + n % 10 =
          a * (P * 10) + (n / 10 * 10 + n % 10) := by ring
      rw [hring]
      have hmod : n / 10 * 10 + n % 10 = n := by omega
      rw [hmod]

/-- Parsing the printed digits of `n` from accumulator 0 yields `n`. -/
theorem parseDigitsAux_natDigitChars (n : Nat) :
    parseDigitsAux (natDigitChars n) 0 = some n := by
  rw [natDigitChars, parseDigitsAux_natDigitCharsAux n n 0 le_rfl]
  simp

/-- Every printed character is a decimal digit character. -/
theorem natDigitCharsAux_mem :
    ∀ (fuel n : Nat) (ch : Char), ch ∈ natDigitCharsAux fuel n →
      ∃ d, d < 10 ∧ ch = Nat.digitChar d
  | 0, n, ch, h => by simp [natDigitCharsAux] at h
  | fuel + 1, n, ch, h => by
    rw [natDigitCharsAux] at h
    by_cases hn : n = 0
    · simp [hn] at h
    · rw [if_neg hn] at h
      rcases List.mem_append.mp h with h1 | h2
      · exact natDigitCharsAux_mem fuel (n / 10) ch h1
      · have hch : ch = Nat.digitChar (n % 10) := by simpa using h2
        exact ⟨n % 10, Nat.mod_lt _ (by norm_num), hch⟩

/-- No printed digit character is a sign character. -/
theorem natDigitChars_not_sign {n : Nat} {ch : Char}
    (h : ch ∈ natDigitChars n) : ch ≠ '-' ∧ ch ≠ '+' := by
  obtain ⟨d, hd, rfl⟩ := natDigitCharsAux_mem n n ch h
  interval_cases d <;> exact ⟨by decide, by decide⟩

/-- A positive number prints at least one digit. -/
theorem natDigitChars_ne_nil {n : Nat} (h : n ≠ 0) :
    natDigitChars n ≠ [] := by
  cases n with
  | zero => exact absurd rfl h
  | succ m =>
    show natDigitCharsAux (m + 1) (m + 1) ≠ []
    rw [natDigitCharsAux.eq_def]
    simp

/-- Python's `int` inverts Python's `str` on every integer. -/
theorem pyInt_intToDecimal (c : Int) : pyInt (intToDecimal c) = some c := by
  rcases lt_trichotomy c 0 with hneg | rfl | hpos
  · have hne : c.natAbs ≠ 0 := by omega
    rw [intToDecimal, if_pos hneg]
    show pyIntChars ('-' :: natDigitChars c.natAbs) = some c
    rw [pyIntChars, if_pos rfl, if_neg (natDigitChars_ne_nil hne),
      parseDigitsAux_natDigitChars]
    simp only [Option.map_some', Option.some.injEq]
    omega
  · decide
  · have hne : c.natAbs ≠ 0 := by omega
    rw [intToDecimal, if_neg (by omega), if_neg (by omega)]
    show pyIntChars (natDigitChars c.natAbs) = some c
    obtain ⟨x, xs, hxx⟩ := List.exists_cons_of_ne_nil (natDigitChars_ne_nil hne)
    have hsign := @natDigitChars_not_sign c.natAbs x
      (by rw [hxx]; exact List.mem_cons_self x xs)
    rw [hxx, pyIntChars, if_neg hsign.1, if_neg hsign.2, ← hxx,
      parseDigitsAux_natDigitChars]
    simp only [Option.map_some', Option.some.injEq]
    omega

/-- `str` of an integer is never the empty string. -/
theorem intToDecimal_ne_empty (c : Int) : intToDecimal c ≠ "" := by
  rcases lt_trichotomy c 0 with hneg | rfl | hpos
  · rw [intToDecimal, if_pos hneg]
    intro h
    have := congrArg String.data h
    simp at this
  · decide
  · have hne : c.natAbs ≠ 0 := by omega
    rw [intToDecimal, if_neg (by omega), if_neg (by omega)]
    intro h
    have := congrArg String.data h
    simp at this
    exact natDigitChars_ne_nil hne this

/-- Scanning the file-round-tripped element `save` writes for a record with
non-empty name and market appends exactly that record and raises nothing. -/
theorem scanChildren_saved (nm mk : String) (c : Int) (acc : List Product)
    (hn : nm ≠ "") (hm : mk ≠ "") :
    scanChildren (normProduct (productToElement ⟨nm, mk, c⟩)).children
        none none none acc = (acc ++ [⟨nm, mk, c⟩], none) := by
  show scanChildren
      [⟨"name", normText (some nm)⟩, ⟨"market", normText (some mk)⟩,
        ⟨"count", normText (some (intToDecimal c))⟩] none none none acc =
    (acc ++ [⟨nm, mk, c⟩], none)
  rw [normText, if_neg hn, normText, if_neg hm, normText,
    if_neg (intToDecimal_ne_empty c)]
  rw [scanChildren, if_pos rfl]
  rw [scanChildren, if_neg (show ¬("market" : String) = "name" by decide),
    if_pos rfl]
  rw [scanChildren, if_neg (show ¬("count" : String) = "name" by decide),
    if_neg (show ¬("count" : String) = "market" by decide), if_pos rfl]
  simp only [pyInt_intToDecimal c]
  rw [scanChildren]
  simp [maybeAppend]

/-- The outer loop over the saved-and-reparsed elements of a catalog whose
records have non-empty names and markets reproduces the records exactly. -/
theorem loadChildren_saved :
    ∀ (l acc : List Product), (∀ r ∈ l, r.name ≠ "" ∧ r.market ≠ "") →
      loadChildren (l.map fun r => normProduct (productToElement r)) acc =
        (acc ++ l, none)
  | [], acc, _ => by simp [loadChildren]
  | r :: t, acc, h => by
    have hr := h r (List.mem_cons_self r t)
    rw [List.map_cons, loadChildren,
      scanChildren_saved r.name r.market r.count acc hr.1 hr.2]
    simp only []
    rw [loadChildren_saved t (acc ++ [r])
      (fun x hx => h x (List.mem_cons_of_mem r hx))]
    simp

/-- C2 (amended): for every catalog whose records all have a non-empty name
and a non-empty market, saving to a file and loading that file into a fresh
catalog reproduces the record list exactly — in particular the multiset of
`(name, market, count)` tuples is preserved.  (Without the non-emptiness
restriction the claim fails: an empty field is serialized as a self-closing
tag, parses back as text `None`, and its record is silently dropped; see the
counterexample.) -/
theorem save_load_roundtrip (s : Staff)
    (h : ∀ r ∈ s.products, r.name ≠ "" ∧ r.market ≠ "") :
    Staff.load ⟨[]⟩ (writeParse (Staff.save s)) = (⟨s.products⟩, none) := by
  have hchild : (writeParse (Staff.save s)).children =
      s.products.map (fun r => normProduct (productToElement r)) := by
    simp [writeParse, Staff.save]
  show (⟨(loadChildren (writeParse (Staff.save s)).children []).1⟩,
      (loadChildren (writeParse (Staff.save s)).children []).2) =
    ((⟨s.products⟩ : Staff), none)
  rw [hchild, loadChildren_saved s.products [] h]
  simp

/-- Witness for C2's amended theorem at a concrete two-record catalog. -/
theorem save_load_roundtrip_witness :
    (∀ r ∈ (Staff.mk [⟨"Bread", "Lidl", 3⟩, ⟨"Apple", "Aldi", 5⟩]).products,
        r.name ≠ "" ∧ r.market ≠ "") ∧
      Staff.load ⟨[]⟩
          (writeParse (Staff.save ⟨[⟨"Bread", "Lidl", 3⟩, ⟨"Apple", "Aldi", 5⟩]⟩)) =
        (⟨[⟨"Bread", "Lidl", 3⟩, ⟨"Apple", "Aldi", 5⟩]⟩, none) :=
  ⟨by decide, save_load_roundtrip ⟨[⟨"Bread", "Lidl", 3⟩, ⟨"Apple", "Aldi", 5⟩]⟩
    (by decide)⟩

/-- C2 counterexample: the claim fails as stated, on a catalog that holds a
record with an empty market.  `save` writes `<market></market>`, which
`ElementTree` serializes as a self-closing tag; on re-parse the market text
is `None`, the all-three-fields condition never holds, and the record is
silently dropped: the loaded multiset of field tuples is empty, the
catalog's is not. -/
theorem save_load_roundtrip_counterexample :
    Staff.load ⟨[]⟩ (writeParse (Staff.save ⟨[⟨"A", "", 5⟩]⟩)) = (⟨[]⟩, none) ∧
      Multiset.ofList
          ((Staff.load ⟨[]⟩ (writeParse (Staff.save ⟨[⟨"A", "", 5⟩]⟩))).1.products.map
            (fun r => (r.name, r.market, r.count))) ≠
        Multiset.ofList
          (([⟨"A", "", 5⟩] : List Product).map
            (fun r => (r.name, r.market, r.count))) := by
  constructor
  · decide
  · intro hmul
    have hcard := congrArg Multiset.card hmul
    have h0 : (Staff.load ⟨[]⟩ (writeParse (Staff.save ⟨[⟨"A", "", 5⟩]⟩))).1.products
        = [] := by decide
    rw [h0] at hcard
    simp at hcard

/-- Main scan lemma for a well-formed (grammar-like) children list: starting
from a not-yet-complete state whose filled slots do not recur among the tags
of `cs`, the scan raises nothing and appends exactly one record — assembled
from the final slot values — when it ends with all three slots filled, and
appends nothing otherwise. -/
theorem scanChildren_wellFormed :
    ∀ (cs : List XmlNode) (n m : Option String) (c : Option Int)
      (acc : List Product),
      (cs.map (fun e => e.tag)).Nodup →
      (∀ e ∈ cs, e.tag ∈ fieldTags) →
      (∀ e ∈ cs, ∃ t, e.text = some t) →
      (∀ e ∈ cs, e.tag = "count" → ∃ t v, e.text = some t ∧ pyInt t = some v) →
      ("name" ∈ cs.map (fun e => e.tag) → n = none) →
      ("market" ∈ cs.map (fun e => e.tag) → m = none) →
      ("count" ∈ cs.map (fun e => e.tag) → c = none) →
      ¬(n.isSome ∧ m.isSome ∧ c.isSome) →
      scanChildren cs n m c acc =
        (acc ++ (match finalName cs n, finalMarket cs m, finalCount cs c with
          | some nm, some mk, some ct => [⟨nm, mk, ct⟩]
          | _, _, _ => []), none)
  | [], n, m, c, acc, _, _, _, _, _, _, _, hful => by
    rw [scanChildren, finalName, finalMarket, finalCount]
    simp only [List.find?_nil, Option.map_none', Option.getD_none]
    cases n with
    | some nv =>
      cases m with
      | some mv =>
        cases c with
        | some cv => exact absurd ⟨rfl, rfl, rfl⟩ hful
        | none => simp
      | none => cases c <;> simp
    | none => cases m <;> cases c <;> simp
  | e :: rest, n, m, c, acc, hnodup, htags, htext, hcount, hn, hm, hc, hful => by
    have hmapc : (e :: rest).map (fun x => x.tag) =
        e.tag :: rest.map (fun x => x.tag) := List.map_cons _ _ _
    rw [hmapc] at hnodup hn hm hc
    obtain ⟨hhead, htail⟩ := List.nodup_cons.mp hnodup
    obtain ⟨t0, htxt⟩ := htext e (List.mem_cons_self e rest)
    have htagmem : e.tag = "name" ∨ e.tag = "market" ∨ e.tag = "count" := by
      simpa [fieldTags] using htags e (List.mem_cons_self e rest)
    have htagsR : ∀ x ∈ rest, x.tag ∈ fieldTags :=
      fun x hx => htags x (List.mem_cons_of_mem e hx)
    have htextR : ∀ x ∈ rest, ∃ t, x.text = some t :=
      fun x hx => htext x (List.mem_cons_of_mem e hx)
    have hcountR : ∀ x ∈ rest, x.tag = "count" →
        ∃ t v, x.text = some t ∧ pyInt t = some v :=
      fun x hx => hcount x (List.mem_cons_of_mem e hx)
    have hnR : "name" ∈ rest.map (fun x => x.tag) → n = none :=
      fun hmem => hn (List.mem_cons_of_mem e.tag hmem)
    have hmR : "market" ∈ rest.map (fun x => x.tag) → m = none :=
      fun hmem => hm (List.mem_cons_of_mem e.tag hmem)
    have hcR : "count" ∈ rest.map (fun x => x.tag) → c = none :=
      fun hmem => hc (List.mem_cons_of_mem e.tag hmem)
    have hr0tags : ∀ r0 rest', rest = r0 :: rest' →
        r0.tag ∈ rest.map (fun x => x.tag) := by
      intro r0 rest' hr
      subst hr
      exact List.mem_map_of_mem (fun x => x.tag) (List.mem_cons_self r0 rest')
    rcases htagmem with h1 | h1 | h1
    · -- the head is the `name` child
      have hownR : "name" ∉ rest.map (fun x => x.tag) := by
        rw [h1] at hhead
        exact hhead
      have hfnone : rest.find? (fun x => x.tag = "name") = none :=
        List.find?_eq_none.mpr (fun x hx => by
          simp only [decide_eq_true_eq]
          intro hxn
          exact hownR (hxn ▸ List.mem_map_of_mem (fun y => y.tag) hx))
      rw [scanChildren, if_pos h1, htxt]
      have e1 : finalName (e :: rest) n = some t0 := by
        rw [finalName, List.find?_cons_of_pos _ (by simp [h1]),
          Option.map_some', Option.getD_some]
        exact htxt
      have e1' : finalName rest (some t0) = some t0 := by
        rw [finalName, hfnone]
        rfl
      have e2 : finalMarket (e :: rest) m = finalMarket rest m := by
        rw [finalMarket, finalMarket, List.find?_cons_of_neg _ (by simp [h1])]
      have e3 : finalCount (e :: rest) c = finalCount rest c := by
        rw [finalCount, finalCount, List.find?_cons_of_neg _ (by simp [h1])]
      by_cases hfull2 : m.isSome ∧ c.isSome
      · obtain ⟨mv, hmv⟩ := Option.isSome_iff_exists.mp hfull2.1
        obtain ⟨cv, hcv⟩ := Option.isSome_iff_exists.mp hfull2.2
        subst hmv
        subst hcv
        have hrest : rest = [] := by
          cases hrc : rest with
          | nil => rfl
          | cons r0 rest' =>
            exfalso
            have hmem := hr0tags r0 rest' hrc
            have hr0 : r0.tag = "name" ∨ r0.tag = "market" ∨ r0.tag = "count" := by
              simpa [fieldTags] using htagsR r0 (by rw [hrc]; exact List.mem_cons_self r0 rest')
            rcases hr0 with hr | hr | hr
            · exact hownR (hr ▸ hmem)
            · have := hm (List.mem_cons_of_mem e.tag (hr ▸ hmem))
              simp at this
            · have := hc (List.mem_cons_of_mem e.tag (hr ▸ hmem))
              simp at this
        subst hrest
        rw [maybeAppend, scanChildren, e1]
        rw [show finalMarket [e] (some mv) = some mv from by
          rw [finalMarket, List.find?_cons_of_neg _ (by simp [h1]), List.find?_nil]
          rfl]
        rw [show finalCount [e] (some cv) = some cv from by
          rw [finalCount, List.find?_cons_of_neg _ (by simp [h1]), List.find?_nil]
          rfl]
      · have hma : maybeAppend acc (some t0) m c = acc := by
          cases m with
          | none => cases c <;> rfl
          | some mv =>
            cases c with
            | none => rfl
            | some cv => exact absurd ⟨rfl, rfl⟩ hfull2
        rw [hma, scanChildren_wellFormed rest (some t0) m c acc htail htagsR
          htextR hcountR (fun hmem => absurd hmem hownR) hmR hcR
          (fun hco => hfull2 hco.2)]
        rw [e1, e1', e2, e3]
    · -- the head is the `market` child
      have hownR : "market" ∉ rest.map (fun x => x.tag) := by
        rw [h1] at hhead
        exact hhead
      have hfnone : rest.find? (fun x => x.tag = "market") = none :=
        List.find?_eq_none.mpr (fun x hx => by
          simp only [decide_eq_true_eq]
          intro hxn
          exact hownR (hxn ▸ List.mem_map_of_mem (fun y => y.tag) hx))
      rw [scanChildren, if_neg (by simp [h1]), if_pos h1, htxt]
      have e1 : finalMarket (e :: rest) m = some t0 := by
        rw [finalMarket, List.find?_cons_of_pos _ (by simp [h1]),
          Option.map_some', Option.getD_some]
        exact htxt
      have e1' : finalMarket rest (some t0) = some t0 := by
        rw [finalMarket, hfnone]
        rfl
      have e2 : finalName (e :: rest) n = finalName rest n := by
        rw [finalName, finalName, List.find?_cons_of_neg _ (by simp [h1])]
      have e3 : finalCount (e :: rest) c = finalCount rest c := by
        rw [finalCount, finalCount, List.find?_cons_of_neg _ (by simp [h1])]
      by_cases hfull2 : n.isSome ∧ c.isSome
      · obtain ⟨nv, hnv⟩ := Option.isSome_iff_exists.mp hfull2.1
        obtain ⟨cv, hcv⟩ := Option.isSome_iff_exists.mp hfull2.2
        subst hnv
        subst hcv
        have hrest : rest = [] := by
          cases hrc : rest with
          | nil => rfl
          | cons r0 rest' =>
            exfalso
            have hmem := hr0tags r0 rest' hrc
            have hr0 : r0.tag = "name" ∨ r0.tag = "market" ∨ r0.tag = "count" := by
              simpa [fieldTags] using htagsR r0 (by rw [hrc]; exact List.mem_cons_self r0 rest')
            rcases hr0 with hr | hr | hr
            · have := hn (List.mem_cons_of_mem e.tag (hr ▸ hmem))
              simp at this
            · exact hownR (hr ▸ hmem)
            · have := hc (List.mem_cons_of_mem e.tag (hr ▸ hmem))
              simp at this
        subst hrest
        rw [maybeAppend, scanChildren, e1]
        rw [show finalName [e] (some nv) = some nv from by
          rw [finalName, List.find?_cons_of_neg _ (by simp [h1]), List.find?_nil]
          rfl]
        rw [show finalCount [e] (some cv) = some cv from by
          rw [finalCount, List.find?_cons_of_neg _ (by simp [h1]), List.find?_nil]
          rfl]
      · have hma : maybeAppend acc n (some t0) c = acc := by
          cases n with
          | none => cases c <;> rfl
          | some nv =>
            cases c with
            | none => rfl
            | some cv => exact absurd ⟨rfl, rfl⟩ hfull2
        rw [hma, scanChildren_wellFormed rest n (some t0) c acc htail htagsR
          htextR hcountR hnR (fun hmem => absurd hmem hownR) hcR
          (fun hco => hfull2 ⟨hco.1, hco.2.2⟩)]
        rw [e1, e1', e2, e3]
    · -- the head is the `count` child
      have hownR : "count" ∉ rest.map (fun x => x.tag) := by
        rw [h1] at hhead
        exact hhead
      have hfnone : rest.find? (fun x => x.tag = "count") = none :=
        List.find?_eq_none.mpr (fun x hx => by
          simp only [decide_eq_true_eq]
          intro hxn
          exact hownR (hxn ▸ List.mem_map_of_mem (fun y => y.tag) hx))
      obtain ⟨t1, v, htxt1, hpi⟩ := hcount e (List.mem_cons_self e rest) h1
      rw [scanChildren, if_neg (by simp [h1]), if_neg (by simp [h1]), if_pos h1,
        htxt1]
      simp only [hpi]
      have e1 : finalCount (e :: rest) c = some v := by
        rw [finalCount, List.find?_cons_of_pos _ (by simp [h1]),
          Option.map_some', Option.getD_some, htxt1, Option.some_bind, hpi]
      have e1' : finalCount rest (some v) = some v := by
        rw [finalCount, hfnone]
        rfl
      have e2 : finalName (e :: rest) n = finalName rest n := by
        rw [finalName, finalName, List.find?_cons_of_neg _ (by simp [h1])]
      have e3 : finalMarket (e :: rest) m = finalMarket rest m := by
        rw [finalMarket, finalMarket, List.find?_cons_of_neg _ (by simp [h1])]
      by_cases hfull2 : n.isSome ∧ m.isSome
      · obtain ⟨nv, hnv⟩ := Option.isSome_iff_exists.mp hfull2.1
        obtain ⟨mv, hmv⟩ := Option.isSome_iff_exists.mp hfull2.2
        subst hnv
        subst hmv
        have hrest : rest = [] := by
          cases hrc : rest with
          | nil => rfl
          | cons r0 rest' =>
            exfalso
            have hmem := hr0tags r0 rest' hrc
            have hr0 : r0.tag = "name" ∨ r0.tag = "market" ∨ r0.tag = "count" := by
              simpa [fieldTags] using htagsR r0 (by rw [hrc]; exact List.mem_cons_self r0 rest')
            rcases hr0 with hr | hr | hr
            · have := hn (List.mem_cons_of_mem e.tag (hr ▸ hmem))
              simp at this
            · have := hm (List.mem_cons_of_mem e.tag (hr ▸ hmem))
              simp at this
            · exact hownR (hr ▸ hmem)
        subst hrest
        rw [maybeAppend, scanChildren, e1]
        rw [show finalName [e] (some nv) = some nv from by
          rw [finalName, List.find?_cons_of_neg _ (by simp [h1]), List.find?_nil]
          rfl]
        rw [show finalMarket [e] (some mv) = some mv from by
          rw [finalMarket, List.find?_cons_of_neg _ (by simp [h1]), List.find?_nil]
          rfl]
      · have hma : maybeAppend acc n m (some v) = acc := by
          cases n with
          | none => cases m <;> rfl
          | some nv =>
            cases m with
            | none => rfl
            | some mv => exact absurd ⟨rfl, rfl⟩ hfull2
        rw [hma, scanChildren_wellFormed rest n m (some v) acc htail htagsR
          htextR hcountR hnR hmR (fun hmem => absurd hmem hownR)
          (fun hco => hfull2 ⟨hco.1, hco.2.1⟩)]
        rw [e1, e1', e2, e3]

/-- What one well-formed product element contributes: its record when the
three fields are complete, nothing when one is missing — never an error. -/
theorem productRecords_wellFormed (p : ProductNode) (h : WellFormedProduct p) :
    productRecords p = ((recordOfProduct p).toList, none) := by
  obtain ⟨hnodup, htags, htext, hcount⟩ := h
  have htext' : ∀ e ∈ p.children, ∃ t, e.text = some t :=
    fun e he => Option.isSome_iff_exists.mp (htext e he)
  have hcount' : ∀ e ∈ p.children, e.tag = "count" →
      ∃ t v, e.text = some t ∧ pyInt t = some v := by
    intro e he htag
    obtain ⟨v, hv⟩ := Option.isSome_iff_exists.mp (hcount e he htag)
    obtain ⟨t, ht, hptv⟩ := Option.bind_eq_some.mp hv
    exact ⟨t, v, ht, hptv⟩
  rw [productRecords, scanChildren_wellFormed p.children none none none []
    hnodup htags htext' hcount' (fun _ => rfl) (fun _ => rfl) (fun _ => rfl)
    (by simp), recordOfProduct]
  cases finalName p.children none <;> cases finalMarket p.children none <;>
    cases finalCount p.children none <;> simp

/-- The final name slot is filled exactly when a `name` child occurs. -/
theorem finalName_isSome_iff (cs : List XmlNode)
    (htext : ∀ e ∈ cs, e.text.isSome) :
    (finalName cs none).isSome ↔ "name" ∈ cs.map (fun e => e.tag) := by
  rw [finalName]
  cases hf : cs.find? (fun e => e.tag = "name") with
  | none =>
    simp only [Option.map_none', Option.getD_none, Option.isSome_none,
      Bool.false_eq_true, false_iff]
    intro hmem
    obtain ⟨x, hx, hxt⟩ := List.mem_map.mp hmem
    have := List.find?_eq_none.mp hf x hx
    simp [hxt] at this
  | some x =>
    have hx : x ∈ cs := List.mem_of_find?_eq_some hf
    have hpx : x.tag = "name" := by simpa using List.find?_some hf
    simp only [Option.map_some', Option.getD_some]
    constructor
    · intro _
      exact hpx ▸ List.mem_map_of_mem (fun e => e.tag) hx
    · intro _
      exact htext x hx

/-- The final market slot is filled exactly when a `market` child occurs. -/
theorem finalMarket_isSome_iff (cs : List XmlNode)
    (htext : ∀ e ∈ cs, e.text.isSome) :
    (finalMarket cs none).isSome ↔ "market" ∈ cs.map (fun e => e.tag) := by
  rw [finalMarket]
  cases hf : cs.find? (fun e => e.tag = "market") with
  | none =>
    simp only [Option.map_none', Option.getD_none, Option.isSome_none,
      Bool.false_eq_true, false_iff]
    intro hmem
    obtain ⟨x, hx, hxt⟩ := List.mem_map.mp hmem
    have := List.find?_eq_none.mp hf x hx
    simp [hxt] at this
  | some x =>
    have hx : x ∈ cs := List.mem_of_find?_eq_some hf
    have hpx : x.tag = "market" := by simpa using List.find?_some hf
    simp only [Option.map_some', Option.getD_some]
    constructor
    · intro _
      exact hpx ▸ List.mem_map_of_mem (fun e => e.tag) hx
    · intro _
      exact htext x hx

/-- The final count slot is filled exactly when a `count` child occurs. -/
theorem finalCount_isSome_iff (cs : List XmlNode)
    (hcount : ∀ e ∈ cs, e.tag = "count" → (e.text.bind pyInt).isSome) :
    (finalCount cs none).isSome ↔ "count" ∈ cs.map (fun e => e.tag) := by
  rw [finalCount]
  cases hf : cs.find? (fun e => e.tag = "count") with
  | none =>
    simp only [Option.map_none', Option.getD_none, Option.isSome_none,
      Bool.false_eq_true, false_iff]
    intro hmem
    obtain ⟨x, hx, hxt⟩ := List.mem_map.mp hmem
    have := List.find?_eq_none.mp hf x hx
    simp [hxt] at this
  | some x =>
    have hx : x ∈ cs := List.mem_of_find?_eq_some hf
    have hpx : x.tag = "count" := by simpa using List.find?_some hf
    simp only [Option.map_some', Option.getD_some]
    constructor
    · intro _
      exact hpx ▸ List.mem_map_of_mem (fun e => e.tag) hx
    · intro _
      exact hcount x hx hpx

/-- A well-formed product element materializes a record exactly when all
three fields appear among its children. -/
theorem recordOfProduct_complete (p : ProductNode) (h : WellFormedProduct p) :
    (recordOfProduct p).isSome ↔ CompleteProduct p := by
  obtain ⟨_, _, htext, hcount⟩ := h
  rw [recordOfProduct, CompleteProduct,
    ← finalName_isSome_iff p.children htext,
    ← finalMarket_isSome_iff p.children htext,
    ← finalCount_isSome_iff p.children hcount]
  cases finalName p.children none <;> cases finalMarket p.children none <;>
    cases finalCount p.children none <;> simp

/-- When every product element scans without error, the outer loop delivers
the concatenation of the per-element contributions, with no error. -/
theorem loadChildren_ok :
    ∀ (ps : List ProductNode) (acc : List Product),
      (∀ p ∈ ps, (productRecords p).2 = none) →
      loadChildren ps acc =
        (acc ++ (ps.map (fun p => (productRecords p).1)).flatten, none)
  | [], acc, _ => by simp [loadChildren]
  | p :: rest, acc, h => by
    rw [loadChildren, scanChildren_append p.children none none none acc,
      show scanChildren p.children none none none [] = productRecords p from rfl,
      h p (List.mem_cons_self p rest)]
    simp only []
    rw [loadChildren_ok rest (acc ++ (productRecords p).1)
      (fun x hx => h x (List.mem_cons_of_mem p hx))]
    simp [List.append_assoc]

/-- C5 (amended): for every document whose product elements follow the
grammar up to missing fields — children drawn from the three field tags,
no tag repeated, all with text, count texts parsing as integers — `load`
succeeds and materializes exactly one record per product element in which
all three of name, market and count appear, in document order, and silently
drops (no error, no entry) every product element missing one of the three,
while all other valid product elements are still loaded.  (Without the
no-repetition/no-foreign-children restriction, "exactly one" fails: a child
scanned after the triple is complete appends an extra record — see the
counterexample.) -/
theorem load_missing_field_drop (s : Staff) (doc : XmlDoc)
    (h : ∀ p ∈ doc.children, WellFormedProduct p) :
    Staff.load s doc =
        (⟨(doc.children.map (fun p => (recordOfProduct p).toList)).flatten⟩, none) ∧
      ∀ p ∈ doc.children, ((recordOfProduct p).isSome ↔ CompleteProduct p) := by
  constructor
  · show ((⟨(loadChildren doc.children []).1⟩ : Staff),
        (loadChildren doc.children []).2) =
      (⟨(doc.children.map (fun p => (recordOfProduct p).toList)).flatten⟩, none)
    rw [loadChildren_ok doc.children []
      (fun p hp => by rw [productRecords_wellFormed p (h p hp)])]
    have hmapeq : doc.children.map (fun p => (productRecords p).1) =
        doc.children.map (fun p => (recordOfProduct p).toList) :=
      List.map_congr_left
        (fun p hp => by rw [productRecords_wellFormed p (h p hp)])
    rw [hmapeq]
    simp
  · intro p hp
    exact recordOfProduct_complete p (h p hp)

/-- Witness for C5's amended theorem: a document with one complete product
and one product missing its `market`; the first is loaded, the second is
silently dropped. -/
theorem load_missing_field_drop_witness :
    (∀ p ∈ (⟨"products",
        [⟨"product", [⟨"name", some "A"⟩, ⟨"market", some "M"⟩,
            ⟨"count", some "2"⟩]⟩,
         ⟨"product", [⟨"name", some "B"⟩, ⟨"count", some "3"⟩]⟩]⟩ :
          XmlDoc).children, WellFormedProduct p) ∧
      Staff.load ⟨[]⟩ ⟨"products",
        [⟨"product", [⟨"name", some "A"⟩, ⟨"market", some "M"⟩,
            ⟨"count", some "2"⟩]⟩,
         ⟨"product", [⟨"name", some "B"⟩, ⟨"count", some "3"⟩]⟩]⟩ =
        (⟨([⟨"product", [⟨"name", some "A"⟩, ⟨"market", some "M"⟩,
            ⟨"count", some "2"⟩]⟩,
          ⟨"product", [⟨"name", some "B"⟩, ⟨"count", some "3"⟩]⟩].map
            (fun p => (recordOfProduct p).toList)).flatten⟩, none) := by
  have hwf : ∀ p ∈ (⟨"products",
      [⟨"product", [⟨"name", some "A"⟩, ⟨"market", some "M"⟩,
          ⟨"count", some "2"⟩]⟩,
       ⟨"product", [⟨"name", some "B"⟩, ⟨"count", some "3"⟩]⟩]⟩ :
        XmlDoc).children, WellFormedProduct p := by decide
  exact ⟨hwf, (load_missing_field_drop ⟨[]⟩ _ hwf).1⟩

/-- C5 counterexample: the claim fails as stated for arbitrary well-formed
XML.  In this document the single product element contains a second `name`
child after the triple is complete, all three fields appear, yet `load`
materializes two records for it, not exactly one. -/
theorem load_missing_field_drop_counterexample :
    Staff.load ⟨[]⟩ ⟨"products",
        [⟨"product", [⟨"name", some "N"⟩, ⟨"market", some "K"⟩,
            ⟨"count", some "7"⟩, ⟨"name", some "N2"⟩]⟩]⟩ =
      (⟨[⟨"N", "K", 7⟩, ⟨"N2", "K", 7⟩]⟩, none) ∧
    CompleteProduct ⟨"product", [⟨"name", some "N"⟩, ⟨"market", some "K"⟩,
        ⟨"count", some "7"⟩, ⟨"name", some "N2"⟩]⟩ ∧
    (⟨"products", [⟨"product", [⟨"name", some "N"⟩, ⟨"market", some "K"⟩,
        ⟨"count", some "7"⟩, ⟨"name", some "N2"⟩]⟩]⟩ :
      XmlDoc).children.length = 1 ∧
    ([⟨"N", "K", 7⟩, ⟨"N2", "K", 7⟩] : List Product).length ≠ 1 := by
  refine ⟨by decide, by decide, rfl, by decide⟩

/-- C8: `save` always emits the XML declaration with encoding `utf8` and
serializes exactly the current records, in their current in-memory order, to
the grammar of the spec's §6 (`SpecGrammar`, transcribed from the spec).
The hypothesis is the data model's `count ≥ 0` invariant on records, under
which each count text is the decimal form of a non-negative integer.
`Staff.save` is a pure function of the catalog — it only reads `products` —
so the records sequence is unchanged by saving. -/
theorem save_emits_grammar (s : Staff) (h : ∀ r ∈ s.products, 0 ≤ r.count) :
    SpecGrammar (Staff.save s) ∧
      (Staff.save s).doc.children.map
          (fun p => (getField p "name", getField p "market", getField p "count")) =
        s.products.map
          (fun r => (some r.name, some r.market, some (intToDecimal r.count))) := by
  constructor
  · refine ⟨rfl, rfl, ?_⟩
    intro p hp
    have hp' : p ∈ s.products.map productToElement := hp
    obtain ⟨r, hr, rfl⟩ := List.mem_map.mp hp'
    refine ⟨rfl, r.name, r.market, r.count.toNat, ?_⟩
    show ([⟨"name", some r.name⟩, ⟨"market", some r.market⟩,
        ⟨"count", some (intToDecimal r.count)⟩] : List XmlNode).Perm
      [⟨"name", some r.name⟩, ⟨"market", some r.market⟩,
        ⟨"count", some (intToDecimal ((r.count.toNat : Nat) : Int))⟩]
    rw [Int.toNat_of_nonneg (h r hr)]
  · show (s.products.map productToElement).map
        (fun p => (getField p "name", getField p "market", getField p "count")) =
      s.products.map
        (fun r => (some r.name, some r.market, some (intToDecimal r.count)))
    rw [List.map_map]
    exact List.map_congr_left (fun r _ => rfl)

/-- Witness for C8 at a concrete one-record catalog with non-negative count. -/
theorem save_emits_grammar_witness :
    (∀ r ∈ (Staff.mk [⟨"Apple", "Aldi", 5⟩]).products, 0 ≤ r.count) ∧
      SpecGrammar (Staff.save ⟨[⟨"Apple", "Aldi", 5⟩]⟩) ∧
      (Staff.save ⟨[⟨"Apple", "Aldi", 5⟩]⟩).doc.children.map
          (fun p => (getField p "name", getField p "market", getField p "count")) =
        ([⟨"Apple", "Aldi", 5⟩] : List Product).map
          (fun r => (some r.name, some r.market, some (intToDecimal r.count))) := by
  have h0 : ∀ r ∈ (Staff.mk [⟨"Apple", "Aldi", 5⟩]).products, 0 ≤ r.count := by
    decide
  have h := save_emits_grammar ⟨[⟨"Apple", "Aldi", 5⟩]⟩ h0
  exact ⟨h0, h.1, h.2⟩

end Idz
